import Mathlib

/-!
Verification of the numeric/cryptographic core of the `coordinate` repository:
the Chinese-Remainder solver `Numbertheory.CRT` (src/main/Math.py) and the
CREATE2 vanity-address miners `BlockchainUtils.GetSpecialAddressByCreate2`
and `BlockchainUtils.GetSpecialAddressByCreate2_two` (src/main/Blockchain.py).

The Python code is embedded shallowly:
* Python arbitrary-precision non-negative integers become `Nat`.
* Python strings become `List Char`; Python slice `s[i:j]` and substring
  containment `c in s` are modelled by `pySlice` and list infixes.
* `gmpy2.invert(x, m)` (an external library call) raises `ZeroDivisionError`
  when no inverse exists; it is modelled by `invert`, returning `none` in
  that case and the least non-negative modular inverse otherwise.
* The keccak-256 hash (`Web3.keccak`, an external collaborator in the spec)
  is a parameter of the miner definitions.
* The wall-clock timeout of the mining loops is modelled by a fuel bound on
  the number of iterations of the `while` loop; exhausting the fuel is the
  timeout outcome (`none`, the Python functions log and return `None`).
-/

namespace Numbertheory

/-- Model of the external `gmpy2.invert(x, m)`: the least non-negative
`v < m` with `x * v ≡ 1 (mod m)`, or `none` (`ZeroDivisionError`) when no
inverse exists. -/
def invert (x m : Nat) : Option Nat :=
  (List.range m).find? (fun v => x * v % m == 1 % m)

/-- The loop body of `CRT`:
`for mi in moudle: result = (result + a[moudle.index(mi)] * Mi * inv_Mi) % M`.
A failing `gmpy2.invert` (no inverse) or an out-of-range list index raises in
Python, so both abort with `none` here.  `s0` is the full `moudle` list used
for the `moudle.index(mi)` lookup. -/
def crtGo (a s0 : List Nat) (M : Nat) : List Nat → Nat → Option Nat
  | [], result => some result
  | mi :: rest, result =>
    let Mi := M / mi
    match invert Mi mi with
    | none => none
    | some inv_Mi =>
      match a[s0.indexOf mi]? with
      | none => none
      | some ai => crtGo a s0 M rest ((result + ai * Mi * inv_Mi) % M)

/-- `Numbertheory.CRT` from src/main/Math.py.
`M = reduce(lambda x, y: x * y, moudle)` (raises on an empty list), then the
accumulation loop, then `return result % M`. -/
def CRT (moudle a : List Nat) : Option Nat :=
  match moudle with
  | [] => none
  | m0 :: rest =>
    let M := rest.foldl (· * ·) m0
    match crtGo a (m0 :: rest) M (m0 :: rest) 0 with
    | none => none
    | some result => some (result % M)

/-- The value added to the accumulator for the loop element `mi`:
`a[moudle.index(mi)] * Mi * inv_Mi` (with total `M`, original list `s0`). -/
def crtTerm (a s0 : List Nat) (M : Nat) (mi : Nat) : Nat :=
  (a[s0.indexOf mi]?).getD 0 * (M / mi) * ((invert (M / mi) mi).getD 0)

end Numbertheory

namespace BlockchainUtils

/-- The hex digit character of a value `0 ≤ n < 16`, lowercase as produced
by Python's `hex` and `'%02x'` formatting. -/
def hexDigitChar (n : Nat) : Char := Nat.digitChar n

/-- Fuel-driven digit recursion for `hex`. -/
def natToHexAux : Nat → Nat → List Char
  | 0, _ => []
  | fuel + 1, n =>
    if n < 16 then [hexDigitChar n]
    else natToHexAux fuel (n / 16) ++ [hexDigitChar (n % 16)]

/-- Python `hex(n)[2:]` for `n ≥ 0`: the minimal-length lowercase hex
rendering of `n` (`"0"` for zero). -/
def natToHex (n : Nat) : List Char := natToHexAux (n + 1) n

/-- Python `s.rjust(width, c)`: pad on the left up to `width` characters. -/
def rjust (s : List Char) (width : Nat) (c : Char) : List Char :=
  List.replicate (width - s.length) c ++ s

/-- `salt = hex(i)[2:].rjust(64, '0')` (Blockchain.py line 1534). -/
def encodeSalt (i : Nat) : List Char := rjust (natToHex i) 64 '0'

/-- Python `'%02x' % b`: two-digit zero-padded lowercase hex of a byte. -/
def byteHex (b : Nat) : List Char := rjust (natToHex b) 2 '0'

/-- Python index clamping used by slices: a negative index counts from the
end (clamped at 0), a non-negative one is clamped at the length. -/
def pyIndex (n : Nat) (i : Int) : Nat :=
  if i < 0 then ((n : Int) + i).toNat else min n i.toNat

/-- Python string slice `s[start:stop]` (step 1). -/
def pySlice (s : List Char) (start stop : Int) : List Char :=
  (s.take (pyIndex s.length stop)).drop (pyIndex s.length start)

/-- Python string slice `s[start:]`. -/
def pySliceFrom (s : List Char) (start : Int) : List Char :=
  s.drop (pyIndex s.length start)

/-- The candidate address derived from one salt (Blockchain.py lines
1535–1537): hash the string `'0xff' + DeployAddress + salt + BytecodeHash`,
render the digest bytes as two-digit lowercase hex and drop the first 24
hex characters (the first 12 bytes).  The keccak-256 hash (`Web3.keccak`)
is an external collaborator and is passed in as a function. -/
def deriveAddress (keccak : List Char → List Nat)
    (DeployAddress BytecodeHash salt : List Char) : List Char :=
  (((keccak ("0xff".toList ++ DeployAddress ++ salt ++ BytecodeHash)).map
      byteHex).flatten).drop 24

/-- The constraint test of the single-constraint miner: the `if`/`elif`
chain of Blockchain.py lines 1538–1555, with Python `in` as list-infix
containment. -/
def addrCheck (content : List Char) (position : Int) (address : List Char) : Bool :=
  if position = 0 then
    decide (content <:+: pySlice address position (position + content.length))
  else if 0 < position then
    decide (content <:+: pySlice address position (position + content.length))
  else if position < 0 ∧ position ≠ -4 then
    decide (content <:+: pySlice address position (position + content.length))
  else if position = -4 then
    decide (content <:+: pySliceFrom address position)
  else false

/-- The `while` loop of `GetSpecialAddressByCreate2`, with the wall-clock
timeout modelled as a fuel bound on the number of iterations; exhausting
the fuel is the timeout (`None`) outcome. -/
def mineGo (keccak : List Char → List Nat)
    (DeployAddress BytecodeHash content : List Char) (position : Int) :
    Nat → Nat → Option (List Char × List Char)
  | 0, _ => none
  | fuel + 1, i =>
    let salt := encodeSalt i
    let address := deriveAddress keccak DeployAddress BytecodeHash salt
    if addrCheck content position address then
      some ("0x".toList ++ salt, "0x".toList ++ address)
    else
      mineGo keccak DeployAddress BytecodeHash content position fuel (i + 1)

/-- `BlockchainUtils.GetSpecialAddressByCreate2` (Blockchain.py lines
1504–1562): brute-force the counter from 0; on success return
`("0x" + salt, "0x" + address)`; on timeout return `None`. -/
def GetSpecialAddressByCreate2 (keccak : List Char → List Nat)
    (DeployAddress BytecodeHash content : List Char) (position : Int)
    (fuel : Nat) : Option (List Char × List Char) :=
  mineGo keccak DeployAddress BytecodeHash content position fuel 0

/-- The conjunctive constraint test of the two-constraint miner
(Blockchain.py line 1598). -/
def addrCheck2 (content1 : List Char) (position1 : Int)
    (content2 : List Char) (position2 : Int) (address : List Char) : Bool :=
  decide (content1 <:+: pySlice address position1 (position1 + content1.length)) &&
  decide (content2 <:+: pySlice address position2 (position2 + content2.length))

/-- The `while` loop of `GetSpecialAddressByCreate2_two`, fuel-bounded like
`mineGo`. -/
def mineGo2 (keccak : List Char → List Nat)
    (DeployAddress BytecodeHash content1 content2 : List Char)
    (position1 position2 : Int) : Nat → Nat → Option (List Char × List Char)
  | 0, _ => none
  | fuel + 1, i =>
    let salt := encodeSalt i
    let address := deriveAddress keccak DeployAddress BytecodeHash salt
    if addrCheck2 content1 position1 content2 position2 address then
      some ("0x".toList ++ salt, "0x".toList ++ address)
    else
      mineGo2 keccak DeployAddress BytecodeHash content1 content2 position1 position2 fuel (i + 1)

/-- `BlockchainUtils.GetSpecialAddressByCreate2_two` (Blockchain.py lines
1564–1610). -/
def GetSpecialAddressByCreate2_two (keccak : List Char → List Nat)
    (DeployAddress BytecodeHash content1 content2 : List Char)
    (position1 position2 : Int) (fuel : Nat) : Option (List Char × List Char) :=
  mineGo2 keccak DeployAddress BytecodeHash content1 content2 position1 position2 fuel 0

/-- The last four characters of the address string. -/
def lastFour (address : List Char) : List Char :=
  address.drop (address.length - 4)

/-- Spec-side reading of "the content substring appears at the specified
position of the address": at a non-negative position the characters
starting at that offset equal the content; at a negative position the
offset counts from the end of the string (standard negative indexing); the
sentinel -4 means the content appears anywhere within the last four
characters. -/
def specAppearsAt (content address : List Char) (position : Int) : Prop :=
  if position = -4 then content <:+: lastFour address
  else if position < 0 then
    (address.drop ((address.length : Int) + position).toNat).take content.length = content
  else
    (address.drop position.toNat).take content.length = content

/-- A hash function is shaped like keccak-256: 32 output bytes, each below
256. -/
def KeccakWF (keccak : List Char → List Nat) : Prop :=
  ∀ s, (keccak s).length = 32 ∧ ∀ b ∈ keccak s, b < 256

/-- A stand-in hash for concrete witnesses: ignores its input and returns
the bytes 0..31. -/
def keccakConst : List Char → List Nat := fun _ => List.range 32

/-- A stand-in hash for concrete witnesses whose output depends on whether
the preimage contains the character '1' (which distinguishes salt values). -/
def keccakFlag : List Char → List Nat := fun s =>
  if '1' ∈ s then List.replicate 32 255 else List.replicate 32 0

end BlockchainUtils

/-- C10: CRT applied to moduli [3, 5, 7] and remainders [2, 4, 3] returns
exactly 59 (the docstring's own example vector). -/
theorem crt_known_vector : Numbertheory.CRT [3, 5, 7] [2, 4, 3] = some 59 := by
  decide

namespace Numbertheory

/-- When `gcd x m ≠ 1` no modular inverse exists and `gmpy2.invert` fails. -/
theorem invert_eq_none {x m : Nat} (hg : Nat.gcd x m ≠ 1) :
    invert x m = none := by
  rw [invert, List.find?_eq_none]
  intro v hv hpv
  rw [List.mem_range] at hv
  have hm : 0 < m := by omega
  simp only [beq_iff_eq] at hpv
  rcases Nat.lt_or_ge 1 m with h2 | h2
  · have h1m : 1 % m = 1 := Nat.mod_eq_of_lt h2
    rw [h1m] at hpv
    have hq : m * (x * v / m) + x * v % m = x * v := Nat.div_add_mod (x * v) m
    have hdx : Nat.gcd x m ∣ x * v := Dvd.dvd.mul_right (Nat.gcd_dvd_left x m) v
    have hdm : Nat.gcd x m ∣ m * (x * v / m) :=
      Dvd.dvd.mul_right (Nat.gcd_dvd_right x m) (x * v / m)
    have hone : Nat.gcd x m ∣ 1 := by
      have hsub := Nat.dvd_sub' hdx hdm
      have : x * v - m * (x * v / m) = 1 := by omega
      rwa [this] at hsub
    exact hg (Nat.dvd_one.1 hone)
  · have hm1 : m = 1 := by omega
    subst hm1
    exact hg (Nat.gcd_one_right x)

/-- When `x` is coprime to `m > 0`, `gmpy2.invert` succeeds and returns a
modular inverse. -/
theorem invert_eq_some {x m : Nat} (hm : 0 < m) (hc : Nat.Coprime x m) :
    ∃ v, invert x m = some v ∧ x * v % m = 1 % m := by
  have hex : ∃ w, w ∈ List.range m ∧ (x * w % m == 1 % m) = true := by
    rcases Nat.lt_or_ge 1 m with h2 | h2
    · obtain ⟨w, hw⟩ := Nat.exists_mul_emod_eq_one_of_coprime hc h2
      refine ⟨w % m, List.mem_range.2 (Nat.mod_lt _ hm), ?_⟩
      have hmm : x * (w % m) % m = x * w % m := by
        conv_lhs => rw [Nat.mul_mod]
        conv_rhs => rw [Nat.mul_mod]
        rw [Nat.mod_mod_of_dvd _ dvd_rfl]
      simp only [beq_iff_eq, hmm, hw, Nat.mod_eq_of_lt h2]
    · have hm1 : m = 1 := by omega
      subst hm1
      exact ⟨0, List.mem_range.2 (by omega), by simp⟩
  rcases hfind : (List.range m).find? (fun v => x * v % m == 1 % m) with _ | v
  · exfalso
    rw [List.find?_eq_none] at hfind
    obtain ⟨w, hw1, hw2⟩ := hex
    exact hfind w hw1 hw2
  · have hp := List.find?_some hfind
    simp only [beq_iff_eq] at hp
    exact ⟨v, hfind, hp⟩

/-- Python's `reduce(lambda x, y: x * y, ...)` accumulates the product. -/
theorem foldl_mul_eq (l : List Nat) : ∀ x : Nat, l.foldl (· * ·) x = x * l.prod := by
  induction l with
  | nil => intro x; simp
  | cons b t ih =>
    intro x
    rw [List.foldl_cons, ih, List.prod_cons]
    ring

/-- A number coprime to every element of a list is coprime to its product. -/
theorem coprime_list_prod {l : List Nat} {m : Nat}
    (h : ∀ x ∈ l, Nat.Coprime x m) : Nat.Coprime l.prod m := by
  induction l with
  | nil => simp [List.prod_nil, Nat.coprime_one_left]
  | cons b t ih =>
    rw [List.prod_cons]
    exact Nat.Coprime.mul (h b (List.mem_cons_self b t))
      (ih fun x hx => h x (List.mem_cons_of_mem b hx))

/-- `list.index(v)` returns `i` when `v` sits at position `i` and at no
earlier position. -/
theorem indexOf_eq_of_first (S : List Nat) :
    ∀ (i : Nat) (hi : i < S.length),
      (∀ (j : Nat) (hj : j < S.length), j < i → S.get ⟨j, hj⟩ ≠ S.get ⟨i, hi⟩) →
      S.indexOf (S.get ⟨i, hi⟩) = i := by
  induction S with
  | nil => intro i hi; simp at hi
  | cons b t ih =>
    intro i hi hne
    cases i with
    | zero => simp [List.indexOf_cons_self]
    | succ n =>
      have hn : n < t.length := by simpa using hi
      have hb : b ≠ t.get ⟨n, hn⟩ := by
        have h0 := hne 0 (by simp) (Nat.succ_pos n)
        simpa using h0
      have hrec : t.indexOf (t.get ⟨n, hn⟩) = n := by
        apply ih n hn
        intro j hj hjn
        have := hne (j + 1) (by simpa using Nat.succ_lt_succ hj) (Nat.succ_lt_succ hjn)
        simpa using this
      have hget : (b :: t).get ⟨n + 1, hi⟩ = t.get ⟨n, hn⟩ := rfl
      rw [hget, List.indexOf_cons_ne t hb, hrec]

end Numbertheory

namespace Numbertheory

/-- Splitting a list at an index. -/
theorem list_split_at (S : List Nat) (i : Nat) (hi : i < S.length) :
    S = S.take i ++ S.get ⟨i, hi⟩ :: S.drop (i + 1) := by
  conv_lhs => rw [← List.take_append_drop i S]
  rw [List.drop_eq_getElem_cons hi, List.get_eq_getElem]

/-- Running the CRT loop when every inverse exists and every index lookup
is in bounds: the accumulator collects the sum of the loop terms mod `M`. -/
theorem crtGo_run (a s0 : List Nat) (M : Nat) :
    ∀ (l : List Nat) (r : Nat),
      (∀ mi ∈ l, (invert (M / mi) mi).isSome = true ∧ s0.indexOf mi < a.length) →
      ∃ res, crtGo a s0 M l r = some res ∧
        res % M = (r + (l.map (crtTerm a s0 M)).sum) % M := by
  intro l
  induction l with
  | nil => intro r _; exact ⟨r, rfl, by simp⟩
  | cons mi rest ih =>
    intro r hall
    obtain ⟨hinv, hidx⟩ := hall mi (List.mem_cons_self mi rest)
    rcases hv : invert (M / mi) mi with _ | v
    · rw [hv] at hinv; simp at hinv
    · have hidx2 : a[s0.indexOf mi]? = some (a.get ⟨s0.indexOf mi, hidx⟩) := by
        rw [List.getElem?_eq_getElem hidx, List.get_eq_getElem]
      obtain ⟨res, hres, hmod⟩ :=
        ih ((r + a.get ⟨s0.indexOf mi, hidx⟩ * (M / mi) * v) % M)
          (fun x hx => hall x (List.mem_cons_of_mem mi hx))
      refine ⟨res, ?_, ?_⟩
      · simp only [crtGo, hv, hidx2]
        exact hres
      · rw [hmod, List.map_cons, List.sum_cons, Nat.mod_add_mod]
        have ht : crtTerm a s0 M mi = a.get ⟨s0.indexOf mi, hidx⟩ * (M / mi) * v := by
          rw [crtTerm, hidx2, hv]
          rfl
        rw [ht]
        congr 1
        omega

/-- The product of the moduli divided by the one at index `i` is the
product of the remaining ones. -/
theorem crt_split (S : List Nat) (hpos : ∀ m ∈ S, 0 < m) (i : Nat)
    (hi : i < S.length) :
    S.prod / S.get ⟨i, hi⟩ = (S.take i).prod * (S.drop (i + 1)).prod := by
  have hv : 0 < S.get ⟨i, hi⟩ := hpos _ (S.get_mem i hi)
  have hprod : S.prod
      = S.get ⟨i, hi⟩ * ((S.take i).prod * (S.drop (i + 1)).prod) := by
    conv_lhs => rw [list_split_at S i hi]
    rw [List.prod_append, List.prod_cons]
    ring
  rw [hprod, Nat.mul_div_cancel_left _ hv]

/-- In a pairwise-coprime list every other element is coprime to the one at
index `i`. -/
theorem pairwise_coprime_others (S : List Nat) (hcop : S.Pairwise Nat.Coprime)
    (i : Nat) (hi : i < S.length) :
    ∀ x ∈ S.take i ++ S.drop (i + 1), Nat.Coprime x (S.get ⟨i, hi⟩) := by
  rw [list_split_at S i hi, List.pairwise_append] at hcop
  obtain ⟨_, h2, h12⟩ := hcop
  intro x hx
  rcases List.mem_append.1 hx with hA | hB
  · exact h12 x hA _ (List.mem_cons_self _ _)
  · exact Nat.Coprime.symm ((List.pairwise_cons.1 h2).1 x hB)

/-- The `Mi = M // mi` of the loop is coprime to `mi` when the moduli are
pairwise coprime. -/
theorem coprime_prod_div (S : List Nat) (hpos : ∀ m ∈ S, 0 < m)
    (hcop : S.Pairwise Nat.Coprime) (i : Nat) (hi : i < S.length) :
    Nat.Coprime (S.prod / S.get ⟨i, hi⟩) (S.get ⟨i, hi⟩) := by
  rw [crt_split S hpos i hi, ← List.prod_append]
  exact coprime_list_prod (pairwise_coprime_others S hcop i hi)

/-- The modulus at index `i` divides `M // x` for every other list element
`x`. -/
theorem dvd_prod_div (S : List Nat) (hpos : ∀ m ∈ S, 0 < m) (i : Nat)
    (hi : i < S.length) {x : Nat} (hx : x ∈ S.take i ++ S.drop (i + 1)) :
    S.get ⟨i, hi⟩ ∣ S.prod / x := by
  have hxS : x ∈ S := by
    rcases List.mem_append.1 hx with hA | hB
    · exact List.take_subset i S hA
    · exact List.drop_subset (i + 1) S hB
  have hx0 : 0 < x := hpos x hxS
  have hprod : S.prod
      = (S.take i).prod * (S.get ⟨i, hi⟩ * (S.drop (i + 1)).prod) := by
    conv_lhs => rw [list_split_at S i hi]
    rw [List.prod_append, List.prod_cons]
  rcases List.mem_append.1 hx with hA | hB
  · obtain ⟨c, hc⟩ := List.dvd_prod hA
    have hP : S.prod = x * (c * (S.get ⟨i, hi⟩ * (S.drop (i + 1)).prod)) := by
      rw [hprod, hc]; ring
    rw [hP, Nat.mul_div_cancel_left _ hx0]
    exact Dvd.dvd.mul_left (Dvd.dvd.mul_right dvd_rfl _) c
  · obtain ⟨c, hc⟩ := List.dvd_prod hB
    have hP : S.prod = x * ((S.take i).prod * (S.get ⟨i, hi⟩ * c)) := by
      rw [hprod, hc]; ring
    rw [hP, Nat.mul_div_cancel_left _ hx0]
    exact Dvd.dvd.mul_left (Dvd.dvd.mul_right dvd_rfl c) _

/-- With positive pairwise-coprime moduli every `gmpy2.invert` call of the
loop succeeds. -/
theorem crt_inverts (S : List Nat) (hpos : ∀ m ∈ S, 0 < m)
    (hcop : S.Pairwise Nat.Coprime) :
    ∀ mi ∈ S, (invert (S.prod / mi) mi).isSome = true := by
  intro mi hmi
  obtain ⟨n, hn⟩ := List.mem_iff_get.1 hmi
  have hco : Nat.Coprime (S.prod / mi) mi := by
    rw [← hn]
    exact coprime_prod_div S hpos hcop n.1 n.2
  obtain ⟨w, hw, _⟩ := invert_eq_some (hpos mi hmi) hco
  rw [hw]
  rfl

end Numbertheory

namespace Numbertheory

/-- Splitting a mapped sum at an index. -/
theorem map_sum_split (S : List Nat) (i : Nat) (hm : i < S.length)
    (f : Nat → Nat) :
    (S.map f).sum
      = ((S.take i).map f).sum
        + (f (S.get ⟨i, hm⟩) + ((S.drop (i + 1)).map f).sum) := by
  conv_lhs => rw [list_split_at S i hm]
  rw [List.map_append, List.map_cons, List.sum_append, List.sum_cons]

/-- The sum of the loop terms is congruent to `a[i]` modulo `moudle[i]`. -/
theorem crt_sum_mod (S a : List Nat) (hpos : ∀ m ∈ S, 0 < m)
    (hcop : S.Pairwise Nat.Coprime)
    (i : Nat) (hm : i < S.length) (ha : i < a.length)
    (hai : a.get ⟨i, ha⟩ < S.get ⟨i, hm⟩) :
    (S.map (crtTerm a S S.prod)).sum % S.get ⟨i, hm⟩ = a.get ⟨i, ha⟩ := by
  have hv0 : 0 < S.get ⟨i, hm⟩ := hpos _ (S.get_mem i hm)
  rcases Nat.lt_or_ge 1 (S.get ⟨i, hm⟩) with h2 | h2
  · have hA : S.get ⟨i, hm⟩ ∣ ((S.take i).map (crtTerm a S S.prod)).sum := by
      apply List.dvd_sum
      intro t ht
      obtain ⟨x, hxA, hfx⟩ := List.mem_map.1 ht
      rw [← hfx, crtTerm]
      exact Dvd.dvd.mul_right
        (Dvd.dvd.mul_left
          (dvd_prod_div S hpos i hm (List.mem_append_left _ hxA)) _) _
    have hB : S.get ⟨i, hm⟩ ∣ ((S.drop (i + 1)).map (crtTerm a S S.prod)).sum := by
      apply List.dvd_sum
      intro t ht
      obtain ⟨x, hxB, hfx⟩ := List.mem_map.1 ht
      rw [← hfx, crtTerm]
      exact Dvd.dvd.mul_right
        (Dvd.dvd.mul_left
          (dvd_prod_div S hpos i hm (List.mem_append_right _ hxB)) _) _
    obtain ⟨u, hu⟩ := hA
    obtain ⟨w, hw⟩ := hB
    rw [map_sum_split S i hm (crtTerm a S S.prod), hu, hw]
    have hrw : S.get ⟨i, hm⟩ * u
        + (crtTerm a S S.prod (S.get ⟨i, hm⟩) + S.get ⟨i, hm⟩ * w)
        = crtTerm a S S.prod (S.get ⟨i, hm⟩) + S.get ⟨i, hm⟩ * (u + w) := by
      ring
    rw [hrw, Nat.add_mul_mod_self_left]
    have hidx : S.indexOf (S.get ⟨i, hm⟩) = i := by
      apply indexOf_eq_of_first
      intro j hj hji heq
      have hco := (List.pairwise_iff_get.1 hcop) ⟨j, hj⟩ ⟨i, hm⟩ (Fin.mk_lt_mk.2 hji)
      rw [heq] at hco
      rw [Nat.Coprime, Nat.gcd_self] at hco
      omega
    have hget2 : a[S.indexOf (S.get ⟨i, hm⟩)]? = some (a.get ⟨i, ha⟩) := by
      rw [hidx, List.getElem?_eq_getElem ha, List.get_eq_getElem]
    have hco : Nat.Coprime (S.prod / S.get ⟨i, hm⟩) (S.get ⟨i, hm⟩) :=
      coprime_prod_div S hpos hcop i hm
    obtain ⟨w2, hw2, hw2p⟩ := invert_eq_some hv0 hco
    have ht : crtTerm a S S.prod (S.get ⟨i, hm⟩)
        = a.get ⟨i, ha⟩ * ((S.prod / S.get ⟨i, hm⟩) * w2) := by
      rw [crtTerm, hget2, hw2]
      show a.get ⟨i, ha⟩ * (S.prod / S.get ⟨i, hm⟩) * w2 = _
      ring
    rw [ht, Nat.mul_mod, hw2p, Nat.mod_eq_of_lt h2, Nat.mul_one,
      Nat.mod_mod_of_dvd _ dvd_rfl, Nat.mod_eq_of_lt hai]
  · have hv1 : S.get ⟨i, hm⟩ = 1 := by omega
    have ha0 : a.get ⟨i, ha⟩ = 0 := by omega
    rw [hv1, Nat.mod_one, ha0]

/-- Unfolding `CRT` on a non-empty modulus list. -/
theorem CRT_cons (m0 : Nat) (rest a : List Nat) :
    CRT (m0 :: rest) a =
      match crtGo a (m0 :: rest) ((m0 :: rest).prod) (m0 :: rest) 0 with
      | none => none
      | some result => some (result % (m0 :: rest).prod) := by
  simp only [CRT]
  rw [foldl_mul_eq, ← List.prod_cons]

/-- C2: for every equal-length pair of (nonempty) sequences of
pairwise-coprime positive moduli and remainders `0 ≤ a[i] < moudle[i]`,
`CRT` returns a value `r` with `r % moudle[i] = a[i]` for every index. -/
theorem CRT_mod_eq (moudle a : List Nat) (hne : moudle ≠ [])
    (hlen : a.length = moudle.length)
    (hpos : ∀ m ∈ moudle, 0 < m)
    (hcop : moudle.Pairwise Nat.Coprime)
    (hlt : ∀ (i : Nat) (hm : i < moudle.length) (ha : i < a.length),
      a.get ⟨i, ha⟩ < moudle.get ⟨i, hm⟩) :
    ∃ r, CRT moudle a = some r ∧
      ∀ (i : Nat) (hm : i < moudle.length) (ha : i < a.length),
        r % moudle.get ⟨i, hm⟩ = a.get ⟨i, ha⟩ := by
  rcases moudle with _ | ⟨m0, rest⟩
  · exact absurd rfl hne
  · have hallinv : ∀ mi ∈ (m0 :: rest : List Nat),
        (invert ((m0 :: rest : List Nat).prod / mi) mi).isSome = true :=
      crt_inverts (m0 :: rest) hpos hcop
    have hallidx : ∀ mi ∈ (m0 :: rest : List Nat),
        (m0 :: rest : List Nat).indexOf mi < a.length := by
      intro mi hmi
      rw [hlen]
      exact List.indexOf_lt_length.2 hmi
    obtain ⟨res, hres, hmod⟩ :=
      crtGo_run a (m0 :: rest) ((m0 :: rest : List Nat).prod) (m0 :: rest) 0
        (fun mi hmi => ⟨hallinv mi hmi, hallidx mi hmi⟩)
    refine ⟨res % (m0 :: rest : List Nat).prod, ?_, ?_⟩
    · rw [CRT_cons, hres]
    · intro i hm ha
      have hdvd : (m0 :: rest : List Nat).get ⟨i, hm⟩ ∣ (m0 :: rest : List Nat).prod :=
        List.dvd_prod (List.get_mem _ i hm)
      rw [Nat.mod_mod_of_dvd _ hdvd, ← Nat.mod_mod_of_dvd res hdvd, hmod,
        Nat.mod_mod_of_dvd _ hdvd, Nat.zero_add]
      exact crt_sum_mod (m0 :: rest) a hpos hcop i hm ha (hlt i hm ha)

/-- Witness for C2 at the concrete system `moudle = [3, 5, 7]`,
`a = [2, 4, 3]`: the solver succeeds and the result is 4 mod 5. -/
theorem CRT_mod_eq_witness :
    ∃ r, CRT [3, 5, 7] [2, 4, 3] = some r ∧ r % 5 = 4 := by
  obtain ⟨r, h1, h2⟩ := CRT_mod_eq [3, 5, 7] [2, 4, 3]
    (by decide) (by decide) (by decide)
    (by
      refine List.Pairwise.cons ?_ (List.Pairwise.cons ?_ ?_)
      · intro b hb
        rcases List.mem_cons.1 hb with h | h
        · subst h; decide
        · rcases List.mem_cons.1 h with h | h
          · subst h; decide
          · simp at h
      · intro b hb
        rcases List.mem_cons.1 hb with h | h
        · subst h; decide
        · simp at h
      · exact List.pairwise_singleton _ _)
    (by
      intro i hm ha
      match i, hm, ha with
      | 0, _, _ => exact Nat.lt_of_sub_eq_succ rfl
      | 1, _, _ => exact Nat.lt_of_sub_eq_succ rfl
      | 2, _, _ => exact Nat.lt_of_sub_eq_succ rfl)
  exact ⟨r, h1, h2 1 (by decide) (by decide)⟩

/-- Aborting run of the CRT loop: if any element's modular inverse does not
exist, the whole computation fails. -/
theorem crtGo_none (a s0 : List Nat) (M : Nat) :
    ∀ (l : List Nat) (r : Nat), (∃ mi ∈ l, invert (M / mi) mi = none) →
      crtGo a s0 M l r = none := by
  intro l
  induction l with
  | nil =>
    intro r h
    obtain ⟨mi, hmi, _⟩ := h
    simp at hmi
  | cons x rest ih =>
    intro r h
    obtain ⟨mi, hmi, hnone⟩ := h
    rcases List.mem_cons.1 hmi with heq | hmem
    · subst heq
      simp only [crtGo, hnone]
    · rcases hv : invert (M / x) x with _ | v
      · simp only [crtGo, hv]
      · rcases hlook : a[s0.indexOf x]? with _ | ai
        · simp only [crtGo, hv, hlook]
        · simp only [crtGo, hv, hlook]
          exact ih _ ⟨mi, hmem, hnone⟩

/-- C8: when `gcd(M / moudle[i], moudle[i]) ≠ 1` for some index — the
moduli are not pairwise coprime — the `gmpy2.invert` step fails
(`NoInverseExists`, a raised error) and `CRT` returns no number. -/
theorem CRT_fails_of_not_coprime (moudle a : List Nat)
    (h : ∃ (i : Nat) (hi : i < moudle.length),
      Nat.gcd (moudle.prod / moudle.get ⟨i, hi⟩) (moudle.get ⟨i, hi⟩) ≠ 1) :
    (∃ (i : Nat) (hi : i < moudle.length),
      invert (moudle.prod / moudle.get ⟨i, hi⟩) (moudle.get ⟨i, hi⟩) = none) ∧
    CRT moudle a = none := by
  rcases moudle with _ | ⟨m0, rest⟩
  · obtain ⟨i, hi, _⟩ := h
    simp at hi
  · obtain ⟨i, hi, hg⟩ := h
    have hnone := invert_eq_none hg
    refine ⟨⟨i, hi, hnone⟩, ?_⟩
    have hgo : crtGo a (m0 :: rest) ((m0 :: rest : List Nat).prod) (m0 :: rest) 0 = none :=
      crtGo_none a (m0 :: rest) _ (m0 :: rest) 0
        ⟨(m0 :: rest : List Nat).get ⟨i, hi⟩, List.get_mem _ i hi, hnone⟩
    rw [CRT_cons, hgo]

/-- Witness for C8 at the concrete non-coprime system `moudle = [4, 6]`,
`a = [1, 1]`: `gcd(24 / 4, 4) = 2`, the inverse step fails and
`CRT([4, 6], [1, 1])` returns no number. -/
theorem CRT_fails_witness :
    (∃ (i : Nat) (hi : i < ([4, 6] : List Nat).length),
      invert (([4, 6] : List Nat).prod / ([4, 6] : List Nat).get ⟨i, hi⟩)
        (([4, 6] : List Nat).get ⟨i, hi⟩) = none) ∧
    CRT [4, 6] [1, 1] = none :=
  CRT_fails_of_not_coprime [4, 6] [1, 1] ⟨0, by decide, by decide⟩

end Numbertheory

namespace BlockchainUtils

/-- An infix at least as long as its host equals the host. -/
theorem infix_eq_of_length_le {c s : List Char} (h : c <:+: s)
    (hlen : s.length ≤ c.length) : c = s := by
  obtain ⟨t1, t2, ht⟩ := h
  have hL : t1.length + (c.length + t2.length) = s.length := by
    rw [← ht]
    simp [List.length_append]
  have ht1 : t1.length = 0 := by omega
  have ht2 : t2.length = 0 := by omega
  rw [List.length_eq_zero] at ht1 ht2
  subst ht1
  subst ht2
  simpa using ht

/-- A Python slice of requested width `len` yields at most `len`
characters. -/
theorem pySlice_length_le (s : List Char) (p : Int) (len : Nat) :
    (pySlice s p (p + len)).length ≤ len := by
  rw [pySlice, List.length_drop, List.length_take]
  have haux : pyIndex s.length (p + len) ≤ pyIndex s.length p + len := by
    simp only [pyIndex]
    split_ifs <;> omega
  omega

/-- Taking back the length of a known take. -/
theorem eq_take_of_eq_take {l c : List Char} {k : Nat} (hc : c = l.take k) :
    l.take c.length = c := by
  rcases Nat.le_total k l.length with hle | hge
  · have hck : c.length = k := by
      rw [hc, List.length_take]
      omega
    rw [hck]
    exact hc.symm
  · have h1 : l.take k = l := List.take_of_length_le hge
    rw [hc, h1, List.take_length]

/-- If the content is contained in the width-`len` slice at `p`, the
characters of `s` from the clamped start index onwards begin with the
content. -/
theorem slice_to_spec {s c : List Char} {p : Int}
    (h : c <:+: pySlice s p (p + c.length)) :
    (s.drop (pyIndex s.length p)).take c.length = c := by
  have hc : c = pySlice s p (p + c.length) :=
    infix_eq_of_length_le h (pySlice_length_le s p c.length)
  have hslice : pySlice s p (p + c.length)
      = (s.drop (pyIndex s.length p)).take
          (pyIndex s.length (p + c.length) - pyIndex s.length p) := by
    rw [pySlice, List.drop_take]
  exact eq_take_of_eq_take (hc.trans hslice)

/-- Outside the sentinel, the miner's test is containment in the width
slice at `position`. -/
theorem addrCheck_eq_main {c s : List Char} {p : Int} (hp : p ≠ -4) :
    addrCheck c p s = decide (c <:+: pySlice s p (p + c.length)) := by
  rw [addrCheck]
  rcases lt_trichotomy p 0 with h | h | h
  · rw [if_neg (by omega), if_neg (by omega), if_pos ⟨h, hp⟩]
  · rw [if_pos h]
  · rw [if_neg (by omega), if_pos h]

/-- At the sentinel -4 the miner's test is containment in the tail slice. -/
theorem addrCheck_eq_neg4 {c s : List Char} :
    addrCheck c (-4) s = decide (c <:+: pySliceFrom s (-4)) := by
  rw [addrCheck]
  norm_num

/-- The clamped tail index of -4. -/
theorem pyIndex_neg4 (n : Nat) : pyIndex n (-4) = n - 4 := by
  rw [pyIndex, if_pos (by norm_num)]
  omega

/-- Containment in the width slice at a non-sentinel position means the
content appears at that position in the spec's sense. -/
theorem spec_of_slice {c s : List Char} {p : Int} (hp : p ≠ -4)
    (h : c <:+: pySlice s p (p + c.length)) : specAppearsAt c s p := by
  have hmain := slice_to_spec h
  rw [specAppearsAt, if_neg hp]
  by_cases hneg : p < 0
  · rw [if_pos hneg]
    have hpi : pyIndex s.length p = ((s.length : Int) + p).toNat := by
      rw [pyIndex, if_pos hneg]
    rwa [hpi] at hmain
  · rw [if_neg hneg]
    rcases Nat.le_total p.toNat s.length with hle | hge
    · have hpi : pyIndex s.length p = p.toNat := by
        rw [pyIndex, if_neg hneg]
        omega
      rwa [hpi] at hmain
    · have hpi : pyIndex s.length p = s.length := by
        rw [pyIndex, if_neg hneg]
        omega
      rw [hpi, List.drop_length] at hmain
      simp only [List.take_nil] at hmain
      have hdrop : s.drop p.toNat = [] := by
        rw [← List.length_eq_zero, List.length_drop]
        omega
      rw [hdrop, ← hmain]
      simp

/-- A passing `addrCheck` means the content appears at the requested
position in the spec's sense. -/
theorem addrCheck_appears {c s : List Char} {p : Int}
    (h : addrCheck c p s = true) : specAppearsAt c s p := by
  by_cases hp : p = -4
  · subst hp
    rw [addrCheck_eq_neg4, decide_eq_true_iff] at h
    rw [specAppearsAt, if_pos rfl]
    rwa [pySliceFrom, pyIndex_neg4] at h
  · rw [addrCheck_eq_main hp, decide_eq_true_iff] at h
    exact spec_of_slice hp h

end BlockchainUtils

namespace BlockchainUtils

/-- Soundness of the single-constraint loop: a returned pair comes from the
first matching counter value at or after the starting index. -/
theorem mineGo_sound (keccak : List Char → List Nat)
    (D H c : List Char) (p : Int) :
    ∀ (fuel i : Nat) (salt addr : List Char),
      mineGo keccak D H c p fuel i = some (salt, addr) →
      ∃ j, i ≤ j ∧ j < i + fuel ∧
        salt = "0x".toList ++ encodeSalt j ∧
        addr = "0x".toList ++ deriveAddress keccak D H (encodeSalt j) ∧
        addrCheck c p (deriveAddress keccak D H (encodeSalt j)) = true ∧
        ∀ m, i ≤ m → m < j →
          addrCheck c p (deriveAddress keccak D H (encodeSalt m)) = false := by
  intro fuel
  induction fuel with
  | zero =>
    intro i salt addr h
    simp [mineGo] at h
  | succ f ih =>
    intro i salt addr h
    cases hchk : addrCheck c p (deriveAddress keccak D H (encodeSalt i)) with
    | true =>
      simp only [mineGo, hchk, if_true] at h
      simp only [Option.some.injEq, Prod.mk.injEq] at h
      obtain ⟨h1, h2⟩ := h
      exact ⟨i, le_refl i, by omega, h1.symm, h2.symm, hchk,
        by intro m hm1 hm2; omega⟩
    | false =>
      simp only [mineGo, hchk, if_false] at h
      obtain ⟨j, hj1, hj2, hs, ha, hc2, hmin⟩ := ih (i + 1) salt addr h
      refine ⟨j, by omega, by omega, hs, ha, hc2, ?_⟩
      intro m hm1 hm2
      rcases Nat.eq_or_lt_of_le hm1 with heq | hlt
      · rw [← heq]
        exact hchk
      · exact hmin m (by omega) hm2

/-- Completeness direction of the timeout: the loop returns `none` exactly
when no counter value within the budget passes the test. -/
theorem mineGo_none_iff (keccak : List Char → List Nat)
    (D H c : List Char) (p : Int) :
    ∀ (fuel i : Nat),
      mineGo keccak D H c p fuel i = none ↔
      ∀ j, i ≤ j → j < i + fuel →
        addrCheck c p (deriveAddress keccak D H (encodeSalt j)) = false := by
  intro fuel
  induction fuel with
  | zero =>
    intro i
    simp only [mineGo]
    constructor
    · intro _ j h1 h2
      omega
    · intro _
      trivial
  | succ f ih =>
    intro i
    cases hchk : addrCheck c p (deriveAddress keccak D H (encodeSalt i)) with
    | true =>
      simp only [mineGo, hchk, if_true]
      constructor
      · intro h
        simp at h
      · intro hall
        have hfalse := hall i (le_refl i) (by omega)
        rw [hchk] at hfalse
        simp at hfalse
    | false =>
      simp only [mineGo, hchk, Bool.false_eq_true, if_false]
      rw [ih (i + 1)]
      constructor
      · intro hall j h1 h2
        rcases Nat.eq_or_lt_of_le h1 with heq | hlt
        · rw [← heq]
          exact hchk
        · exact hall j (by omega) (by omega)
      · intro hall j h1 h2
        exact hall j (by omega) (by omega)

/-- Soundness of the two-constraint loop. -/
theorem mineGo2_sound (keccak : List Char → List Nat)
    (D H c1 c2 : List Char) (p1 p2 : Int) :
    ∀ (fuel i : Nat) (salt addr : List Char),
      mineGo2 keccak D H c1 c2 p1 p2 fuel i = some (salt, addr) →
      ∃ j, i ≤ j ∧ j < i + fuel ∧
        salt = "0x".toList ++ encodeSalt j ∧
        addr = "0x".toList ++ deriveAddress keccak D H (encodeSalt j) ∧
        addrCheck2 c1 p1 c2 p2 (deriveAddress keccak D H (encodeSalt j)) = true := by
  intro fuel
  induction fuel with
  | zero =>
    intro i salt addr h
    simp [mineGo2] at h
  | succ f ih =>
    intro i salt addr h
    cases hchk : addrCheck2 c1 p1 c2 p2 (deriveAddress keccak D H (encodeSalt i)) with
    | true =>
      simp only [mineGo2, hchk, if_true] at h
      simp only [Option.some.injEq, Prod.mk.injEq] at h
      obtain ⟨h1, h2⟩ := h
      exact ⟨i, le_refl i, by omega, h1.symm, h2.symm, hchk⟩
    | false =>
      simp only [mineGo2, hchk, if_false] at h
      obtain ⟨j, hj1, hj2, hs, ha, hc2⟩ := ih (i + 1) salt addr h
      exact ⟨j, by omega, by omega, hs, ha, hc2⟩

/-- The two-constraint loop returns `none` when no counter value within the
budget passes the conjunctive test. -/
theorem mineGo2_none_of (keccak : List Char → List Nat)
    (D H c1 c2 : List Char) (p1 p2 : Int) :
    ∀ (fuel i : Nat),
      (∀ j, addrCheck2 c1 p1 c2 p2 (deriveAddress keccak D H (encodeSalt j)) = false) →
      mineGo2 keccak D H c1 c2 p1 p2 fuel i = none := by
  intro fuel
  induction fuel with
  | zero =>
    intro i _
    rfl
  | succ f ih =>
    intro i hall
    simp only [mineGo2, hall i, if_false]
    exact ih (i + 1) hall

end BlockchainUtils

namespace BlockchainUtils

/-- An immediate digit renders as one character. -/
theorem natToHexAux_small {fuel n : Nat} (h : n < 16) :
    natToHexAux (fuel + 1) n = [hexDigitChar n] := by
  simp [natToHexAux, h]

/-- A byte renders as exactly two hex characters under `'%02x'`. -/
theorem byteHex_length {b : Nat} (hb : b < 256) : (byteHex b).length = 2 := by
  have hlen : (natToHex b).length ≤ 2 := by
    rw [natToHex]
    by_cases h16 : b < 16
    · rw [natToHexAux_small h16]
      simp
    · obtain ⟨k, hk⟩ : ∃ k, b = k + 1 := ⟨b - 1, by omega⟩
      subst hk
      have hb1 : (k + 1) / 16 < 16 := by omega
      have hunfold : natToHexAux (k + 1 + 1) (k + 1)
          = natToHexAux (k + 1) ((k + 1) / 16) ++ [hexDigitChar ((k + 1) % 16)] := by
        simp [natToHexAux, h16]
      rw [hunfold, natToHexAux_small hb1]
      simp
  rw [byteHex, rjust, List.length_append, List.length_replicate]
  omega

/-- The concatenated hex rendering of a byte list has twice its length. -/
theorem flatten_byteHex_length {l : List Nat} (h : ∀ b ∈ l, b < 256) :
    ((l.map byteHex).flatten).length = 2 * l.length := by
  induction l with
  | nil => rfl
  | cons b t ih =>
    simp only [List.map_cons, List.flatten_cons, List.length_append, List.length_cons]
    rw [byteHex_length (h b (List.mem_cons_self b t)),
      ih (fun x hx => h x (List.mem_cons_of_mem b hx))]
    ring

/-- With a well-formed keccak the derived address has 40 characters. -/
theorem deriveAddress_length {keccak : List Char → List Nat}
    (hk : KeccakWF keccak) (D H salt : List Char) :
    (deriveAddress keccak D H salt).length = 40 := by
  rw [deriveAddress, List.length_drop]
  obtain ⟨hlen, hbytes⟩ := hk ("0xff".toList ++ D ++ salt ++ H)
  rw [flatten_byteHex_length hbytes, hlen]

end BlockchainUtils

namespace BlockchainUtils

/-- The constant stand-in hash is shaped like keccak-256. -/
theorem keccakConst_wf : KeccakWF keccakConst := by
  intro s
  constructor
  · simp [keccakConst]
  · intro b hb
    simp only [keccakConst, List.mem_range] at hb
    omega

/-- C1: every `(salt, address)` pair returned by the single-constraint
miner consists of the 64-hex-character zero-left-padded salt of some
counter value `i` and the address obtained by hashing
`0xff || deployer || salt || initCodeHash` and keeping the low 20 bytes
(40 hex characters after dropping the first 24); the content appears at
the requested position of that address. -/
theorem getSpecialAddress_sound (keccak : List Char → List Nat)
    (DeployAddress BytecodeHash content : List Char) (position : Int)
    (fuel : Nat) (salt addr : List Char) (hk : KeccakWF keccak)
    (h : GetSpecialAddressByCreate2 keccak DeployAddress BytecodeHash
      content position fuel = some (salt, addr)) :
    ∃ i, i < fuel ∧
      salt = "0x".toList ++ encodeSalt i ∧
      addr = "0x".toList
        ++ deriveAddress keccak DeployAddress BytecodeHash (encodeSalt i) ∧
      (deriveAddress keccak DeployAddress BytecodeHash (encodeSalt i)).length = 40 ∧
      specAppearsAt content
        (deriveAddress keccak DeployAddress BytecodeHash (encodeSalt i)) position := by
  obtain ⟨j, _, hj2, hs, ha, hchk, _⟩ :=
    mineGo_sound keccak DeployAddress BytecodeHash content position fuel 0 salt addr h
  exact ⟨j, by omega, hs, ha, deriveAddress_length hk DeployAddress BytecodeHash _,
    addrCheck_appears hchk⟩

/-- Witness for C1: with the stand-in hash, content "0c" at position 0 is
found at counter 0 and all conclusions hold concretely. -/
theorem getSpecialAddress_sound_witness :
    ∃ i, i < 1 ∧
      "0x".toList ++ encodeSalt 0 = "0x".toList ++ encodeSalt i ∧
      "0x".toList ++ deriveAddress keccakConst [] [] (encodeSalt 0)
        = "0x".toList ++ deriveAddress keccakConst [] [] (encodeSalt i) ∧
      (deriveAddress keccakConst [] [] (encodeSalt i)).length = 40 ∧
      specAppearsAt "0c".toList (deriveAddress keccakConst [] [] (encodeSalt i)) 0 :=
  getSpecialAddress_sound keccakConst [] [] "0c".toList 0 1
    ("0x".toList ++ encodeSalt 0)
    ("0x".toList ++ deriveAddress keccakConst [] [] (encodeSalt 0))
    keccakConst_wf (by decide)

/-- C3: the counter starts at 0 and increments by 1, and the first match
wins: the returned salt encodes a counter value below the budget whose
address passes the test while every smaller counter value fails it. -/
theorem getSpecialAddress_first (keccak : List Char → List Nat)
    (DeployAddress BytecodeHash content : List Char) (position : Int)
    (fuel : Nat) (salt addr : List Char)
    (h : GetSpecialAddressByCreate2 keccak DeployAddress BytecodeHash
      content position fuel = some (salt, addr)) :
    ∃ i, i < fuel ∧
      salt = "0x".toList ++ encodeSalt i ∧
      addr = "0x".toList
        ++ deriveAddress keccak DeployAddress BytecodeHash (encodeSalt i) ∧
      addrCheck content position
        (deriveAddress keccak DeployAddress BytecodeHash (encodeSalt i)) = true ∧
      ∀ j, j < i → addrCheck content position
        (deriveAddress keccak DeployAddress BytecodeHash (encodeSalt j)) = false := by
  obtain ⟨j, hj1, hj2, hs, ha, hchk, hmin⟩ :=
    mineGo_sound keccak DeployAddress BytecodeHash content position fuel 0 salt addr h
  exact ⟨j, by omega, hs, ha, hchk, fun m hm => hmin m (by omega) hm⟩

/-- Witness for C3: with the salt-sensitive stand-in hash, content "ff" is
first found at counter 1, and counter 0 demonstrably fails the test. -/
theorem getSpecialAddress_first_witness :
    ∃ i, i < 2 ∧
      "0x".toList ++ encodeSalt 1 = "0x".toList ++ encodeSalt i ∧
      "0x".toList ++ deriveAddress keccakFlag [] [] (encodeSalt 1)
        = "0x".toList ++ deriveAddress keccakFlag [] [] (encodeSalt i) ∧
      addrCheck "ff".toList 0 (deriveAddress keccakFlag [] [] (encodeSalt i)) = true ∧
      ∀ j, j < i →
        addrCheck "ff".toList 0 (deriveAddress keccakFlag [] [] (encodeSalt j)) = false :=
  getSpecialAddress_first keccakFlag [] [] "ff".toList 0 2
    ("0x".toList ++ encodeSalt 1)
    ("0x".toList ++ deriveAddress keccakFlag [] [] (encodeSalt 1))
    (by decide)

/-- C4: the timeout outcome `none` occurs exactly when no counter value
within the budget satisfies the constraint, and any non-timeout outcome is
a pair whose address genuinely passes the constraint test — a timeout is
distinguishable from a found result and no wrong pair is ever returned. -/
theorem getSpecialAddress_timeout_iff (keccak : List Char → List Nat)
    (DeployAddress BytecodeHash content : List Char) (position : Int)
    (fuel : Nat) :
    (GetSpecialAddressByCreate2 keccak DeployAddress BytecodeHash
        content position fuel = none ↔
      ∀ i, i < fuel → addrCheck content position
        (deriveAddress keccak DeployAddress BytecodeHash (encodeSalt i)) = false) ∧
    (∀ salt addr,
      GetSpecialAddressByCreate2 keccak DeployAddress BytecodeHash
        content position fuel = some (salt, addr) →
      ∃ i, i < fuel ∧
        salt = "0x".toList ++ encodeSalt i ∧
        addr = "0x".toList
          ++ deriveAddress keccak DeployAddress BytecodeHash (encodeSalt i) ∧
        addrCheck content position
          (deriveAddress keccak DeployAddress BytecodeHash (encodeSalt i)) = true) := by
  constructor
  · rw [GetSpecialAddressByCreate2, mineGo_none_iff]
    constructor
    · intro hall i hi
      exact hall i (by omega) (by omega)
    · intro hall j h1 h2
      exact hall j (by omega)
  · intro salt addr h
    obtain ⟨j, _, hj2, hs, ha, hchk, _⟩ :=
      mineGo_sound keccak DeployAddress BytecodeHash content position fuel 0 salt addr h
    exact ⟨j, by omega, hs, ha, hchk⟩

/-- Witness for C4: a constraint on characters that are never hex digits
("zz") cannot be met, so a 2-iteration budget reliably ends in the timeout
outcome `none`. -/
theorem getSpecialAddress_timeout_witness :
    GetSpecialAddressByCreate2 keccakConst [] [] "zz".toList 0 2 = none :=
  (getSpecialAddress_timeout_iff keccakConst [] [] "zz".toList 0 2).1.mpr
    (by intro i hi; interval_cases i <;> decide)

end BlockchainUtils

namespace BlockchainUtils

/-- C5 (code bug): at position -2 with the two-character content "ab" —
the function's own docstring example, documented as "the last two
characters of the address are 'ab'" — the code evaluates
`content in address[-2:0]`, and `address[-2:0]` is the empty Python
string, so the test rejects every address (even one ending in "ab") and
the miner can only time out. -/
theorem addrCheck_neg2_ab_never (keccak : List Char → List Nat)
    (DeployAddress BytecodeHash : List Char) (fuel : Nat) :
    (∀ address : List Char, addrCheck "ab".toList (-2) address = false) ∧
    GetSpecialAddressByCreate2 keccak DeployAddress BytecodeHash
      "ab".toList (-2) fuel = none := by
  have hch : ∀ address : List Char, addrCheck "ab".toList (-2) address = false := by
    intro address
    rw [addrCheck_eq_main (by norm_num), decide_eq_false_iff_not]
    intro hinf
    have hstop : ((-2 : Int) + ("ab".toList.length : Int)) = 0 := by decide
    rw [hstop] at hinf
    have hsl : pySlice address (-2) 0 = [] := by
      rw [pySlice]
      have h0 : pyIndex address.length 0 = 0 := by
        rw [pyIndex, if_neg (by norm_num)]
        omega
      rw [h0, List.take_zero, List.drop_nil]
    rw [hsl] at hinf
    have hlen := hinf.length_le
    exact absurd hlen (by decide)
  refine ⟨hch, ?_⟩
  rw [GetSpecialAddressByCreate2, mineGo_none_iff]
  intro j _ _
  exact hch _

/-- C6: at the sentinel position -4 the single-constraint miner (whose
derived addresses have 40 characters) finds a pair exactly when some
counter value within the budget yields an address whose last four
characters contain the content anywhere as a substring. -/
theorem getSpecialAddress_neg4_iff (keccak : List Char → List Nat)
    (DeployAddress BytecodeHash content : List Char) (fuel : Nat)
    (hk : KeccakWF keccak) :
    (∀ i : Nat, (deriveAddress keccak DeployAddress BytecodeHash
      (encodeSalt i)).length = 40) ∧
    ((∃ salt addr, GetSpecialAddressByCreate2 keccak DeployAddress
        BytecodeHash content (-4) fuel = some (salt, addr)) ↔
      (∃ i, i < fuel ∧
        content <:+: lastFour
          (deriveAddress keccak DeployAddress BytecodeHash (encodeSalt i)))) := by
  have hcheck : ∀ s : List Char,
      addrCheck content (-4) s = true ↔ content <:+: lastFour s := by
    intro s
    rw [addrCheck_eq_neg4, decide_eq_true_iff, pySliceFrom, pyIndex_neg4, lastFour]
  refine ⟨fun i => deriveAddress_length hk DeployAddress BytecodeHash (encodeSalt i),
    ?_, ?_⟩
  · rintro ⟨salt, addr, h⟩
    obtain ⟨j, _, hj2, _, _, hchk, _⟩ :=
      mineGo_sound keccak DeployAddress BytecodeHash content (-4) fuel 0 salt addr h
    exact ⟨j, by omega, (hcheck _).1 hchk⟩
  · rintro ⟨i, hi, hinf⟩
    rcases hres : GetSpecialAddressByCreate2 keccak DeployAddress BytecodeHash
        content (-4) fuel with _ | pair
    · exfalso
      rw [GetSpecialAddressByCreate2, mineGo_none_iff] at hres
      have hfalse := hres i (by omega) (by omega)
      rw [(hcheck _).2 hinf] at hfalse
      exact absurd hfalse (by simp)
    · rcases pair with ⟨s1, a1⟩
      exact ⟨s1, a1, rfl⟩

/-- Witness for C6: with the stand-in hash the last four address
characters are "1e1f", which contain "e1" (at no fixed offset), and the
miner indeed returns a pair. -/
theorem getSpecialAddress_neg4_witness :
    ∃ salt addr,
      GetSpecialAddressByCreate2 keccakConst [] [] "e1".toList (-4) 1
        = some (salt, addr) :=
  (getSpecialAddress_neg4_iff keccakConst [] [] "e1".toList 1 keccakConst_wf).2.mpr
    ⟨0, Nat.zero_lt_one, by decide⟩

/-- C9 (amended): a call with a non-negative position, nonempty content
and `position + len(content) > 40` performs no input validation and raises
no error; the slice is shorter than the content, so no 40-character
address ever passes the test and the call always ends in the timeout
outcome `None`. -/
theorem getSpecialAddress_overlong_none (keccak : List Char → List Nat)
    (DeployAddress BytecodeHash content : List Char) (position : Int)
    (fuel : Nat) (hk : KeccakWF keccak) (hcne : content ≠ [])
    (hp : 0 ≤ position) (hover : 40 < position + content.length) :
    GetSpecialAddressByCreate2 keccak DeployAddress BytecodeHash
      content position fuel = none := by
  rw [GetSpecialAddressByCreate2, mineGo_none_iff]
  intro j _ _
  have h40 := deriveAddress_length hk DeployAddress BytecodeHash (encodeSalt j)
  rw [addrCheck_eq_main (by omega), decide_eq_false_iff_not]
  intro hinf
  have hlenle := hinf.length_le
  have hclen : 0 < content.length := List.length_pos.2 hcne
  have h1 : (pySlice (deriveAddress keccak DeployAddress BytecodeHash (encodeSalt j))
      position (position + content.length)).length
      = min (pyIndex (deriveAddress keccak DeployAddress BytecodeHash
          (encodeSalt j)).length (position + content.length))
          (deriveAddress keccak DeployAddress BytecodeHash (encodeSalt j)).length
        - pyIndex (deriveAddress keccak DeployAddress BytecodeHash
            (encodeSalt j)).length position := by
    rw [pySlice, List.length_drop, List.length_take]
  have h2 : pyIndex (deriveAddress keccak DeployAddress BytecodeHash
      (encodeSalt j)).length position
      = min (deriveAddress keccak DeployAddress BytecodeHash
          (encodeSalt j)).length position.toNat := by
    rw [pyIndex, if_neg (by omega)]
  rw [h40] at h1 h2
  omega

/-- Counterexample for C9: at the concrete invalid combination
`position = 39`, `content = "abc"` (39 + 3 > 40) the miner returns the
timeout value `None` — there is no distinguished `InvalidInput` outcome in
the code, which only ever returns a pair or `None`. -/
theorem getSpecialAddress_overlong_timeout_example :
    GetSpecialAddressByCreate2 keccakConst [] [] "abc".toList 39 3 = none := by
  decide

/-- Witness for C9 (amended form) at `position = 39`, `content = "abc"`,
budget 5. -/
theorem getSpecialAddress_overlong_witness :
    GetSpecialAddressByCreate2 keccakConst [] [] "abc".toList 39 5 = none :=
  getSpecialAddress_overlong_none keccakConst [] [] "abc".toList 39 5
    keccakConst_wf (by decide) (by norm_num) (by decide)

/-- The two-constraint test splits into its two containments. -/
theorem addrCheck2_eq (c1 : List Char) (p1 : Int) (c2 : List Char)
    (p2 : Int) (s : List Char) :
    addrCheck2 c1 p1 c2 p2 s = true ↔
      (c1 <:+: pySlice s p1 (p1 + c1.length)) ∧
      (c2 <:+: pySlice s p2 (p2 + c2.length)) := by
  rw [addrCheck2, Bool.and_eq_true, decide_eq_true_iff, decide_eq_true_iff]

/-- C7: every pair returned by the two-constraint miner satisfies both
substring constraints at their forward offsets simultaneously for the same
salt; and two mutually exclusive constraints — same position, same length,
different required characters — never match, so the search times out at
every budget. -/
theorem getSpecialAddressTwo_correct :
    (∀ (keccak : List Char → List Nat) (DeployAddress BytecodeHash c1 c2 : List Char)
        (p1 p2 : Int) (fuel : Nat) (salt addr : List Char),
      0 ≤ p1 → 0 ≤ p2 →
      GetSpecialAddressByCreate2_two keccak DeployAddress BytecodeHash
        c1 c2 p1 p2 fuel = some (salt, addr) →
      ∃ i, i < fuel ∧
        salt = "0x".toList ++ encodeSalt i ∧
        addr = "0x".toList
          ++ deriveAddress keccak DeployAddress BytecodeHash (encodeSalt i) ∧
        specAppearsAt c1
          (deriveAddress keccak DeployAddress BytecodeHash (encodeSalt i)) p1 ∧
        specAppearsAt c2
          (deriveAddress keccak DeployAddress BytecodeHash (encodeSalt i)) p2) ∧
    (∀ (keccak : List Char → List Nat) (DeployAddress BytecodeHash c1 c2 : List Char)
        (p : Int) (fuel : Nat),
      0 ≤ p → c1.length = c2.length → c1 ≠ c2 →
      GetSpecialAddressByCreate2_two keccak DeployAddress BytecodeHash
        c1 c2 p p fuel = none) := by
  constructor
  · intro keccak DeployAddress BytecodeHash c1 c2 p1 p2 fuel salt addr hp1 hp2 h
    obtain ⟨j, _, hj2, hs, ha, hchk⟩ :=
      mineGo2_sound keccak DeployAddress BytecodeHash c1 c2 p1 p2 fuel 0 salt addr h
    rw [addrCheck2_eq] at hchk
    exact ⟨j, by omega, hs, ha,
      spec_of_slice (by omega) hchk.1, spec_of_slice (by omega) hchk.2⟩
  · intro keccak DeployAddress BytecodeHash c1 c2 p fuel hp hlen hne
    rw [GetSpecialAddressByCreate2_two]
    apply mineGo2_none_of
    intro j
    cases hb : addrCheck2 c1 p c2 p
        (deriveAddress keccak DeployAddress BytecodeHash (encodeSalt j)) with
    | false => rfl
    | true =>
      exfalso
      rw [addrCheck2_eq] at hb
      obtain ⟨h1, h2⟩ := hb
      have e1 : c1 = pySlice (deriveAddress keccak DeployAddress BytecodeHash
          (encodeSalt j)) p (p + c1.length) :=
        infix_eq_of_length_le h1 (pySlice_length_le _ p c1.length)
      have e2 : c2 = pySlice (deriveAddress keccak DeployAddress BytecodeHash
          (encodeSalt j)) p (p + c2.length) :=
        infix_eq_of_length_le h2 (pySlice_length_le _ p c2.length)
      have esl : pySlice (deriveAddress keccak DeployAddress BytecodeHash
          (encodeSalt j)) p (p + c1.length)
          = pySlice (deriveAddress keccak DeployAddress BytecodeHash
              (encodeSalt j)) p (p + c2.length) := by
        rw [hlen]
      exact hne (e1.trans (esl.trans e2.symm))

/-- Witness for C7: with the stand-in hash the address starts "0c0d…", so
contents "0c" at 0 and "0d" at 2 are found simultaneously at counter 0;
the mutually exclusive pair "aa"/"bb" at the same position 0 times out at
budget 2. -/
theorem getSpecialAddressTwo_witness :
    (∃ i, i < 1 ∧
      "0x".toList ++ encodeSalt 0 = "0x".toList ++ encodeSalt i ∧
      "0x".toList ++ deriveAddress keccakConst [] [] (encodeSalt 0)
        = "0x".toList ++ deriveAddress keccakConst [] [] (encodeSalt i) ∧
      specAppearsAt "0c".toList (deriveAddress keccakConst [] [] (encodeSalt i)) 0 ∧
      specAppearsAt "0d".toList (deriveAddress keccakConst [] [] (encodeSalt i)) 2) ∧
    GetSpecialAddressByCreate2_two keccakConst [] [] "aa".toList "bb".toList 0 0 2
      = none :=
  ⟨getSpecialAddressTwo_correct.1 keccakConst [] [] "0c".toList "0d".toList 0 2 1
      ("0x".toList ++ encodeSalt 0)
      ("0x".toList ++ deriveAddress keccakConst [] [] (encodeSalt 0))
      (by norm_num) (by norm_num) (by decide),
    getSpecialAddressTwo_correct.2 keccakConst [] [] "aa".toList "bb".toList 0 2
      (by norm_num) (by decide) (by decide)⟩

end BlockchainUtils
